import Mathlib

/-!
Shallow embedding of the `rename-seq` repository (`src/lib.rs`, `src/main.rs`).

Rust strings are sequences of UTF-8 bytes; we model them as `List Nat`
(each entry one byte).  All the delimiters the parser looks for are ASCII
(`'{'` = byte 123, `'}'` = byte 125, `'0'` = byte 48), and in valid UTF-8 an
ASCII byte occurs only as that ASCII character, so `str::find('{')` is
exactly the search for the first byte 123 and byte offsets coincide with
positions in the byte list (`'{'.len_utf8() = 1`).
-/

/-- Bytes of an ASCII string literal: for ASCII text the UTF-8 bytes are
exactly the character codes, so this is the byte-list denotation of the
Rust string literal. -/
def ascii (s : String) : List Nat :=
  s.data.map Char.toNat

/-- The kinds of dynamic content of a rename spec (`enum DynamicRenameContent`
in `src/lib.rs`): only `PaddedInteger` exists. -/
inductive DynamicRenameContent where
  | PaddedInteger : DynamicRenameContent
deriving DecidableEq

/-- `struct RenameSpec` of `src/lib.rs`: an `ArrayVec<(&str, DynamicRenameContent), 1>`
of (literal text, dynamic content) pairs — so a list holding at most one
pair, which the embedding keeps as a plain list — plus the trailing literal
text. -/
structure RenameSpec where
  delimited : List (List Nat × DynamicRenameContent)
  suffix : List Nat
deriving DecidableEq

/-- `enum RenameSpecParseErrorKind` of `src/lib.rs`. -/
inductive RenameSpecParseErrorKind where
  | UnexpectedAfterOpenCurlyBrace : RenameSpecParseErrorKind
deriving DecidableEq

/-- `struct RenameSpecParseError` of `src/lib.rs`: the byte index past which
parsing failed, plus the error kind. -/
structure RenameSpecParseError where
  idx : Nat
  source : RenameSpecParseErrorKind
deriving DecidableEq

/-- The replacement-group token `padded_idx\x7d` that must follow an opening
brace (the byte 125 is the closing brace). -/
def padded_idx_token : List Nat :=
  ascii "padded_idx\x7d"

/-- `str::strip_prefix` from the Rust standard library: `some rest` when `s`
starts with `tok` and `rest` is what follows, `none` otherwise. -/
def stripToken : List Nat → List Nat → Option (List Nat)
  | [], s => some s
  | _ :: _, [] => none
  | t :: ts, b :: bs => if b = t then stripToken ts bs else none

/-- `RenameSpec::new` of `src/lib.rs`: find the first `123` byte (the opening
brace); if none, the whole input is the literal `suffix`; otherwise everything
before it is the literal part of one delimited pair, and the bytes after it
must start with `padded_idx_token` (`str::strip_prefix`), else parsing fails
carrying the byte offset just past the opening brace. -/
def RenameSpec.new (s : List Nat) : Except RenameSpecParseError RenameSpec :=
  match List.findIdx? (fun b => b == 123) s with
  | none => Except.ok ⟨[], s⟩
  | some idx =>
    let before := List.take idx s
    let after_brace_idx := idx + 1
    let remaining := List.drop after_brace_idx s
    match stripToken padded_idx_token remaining with
    | some after =>
      Except.ok ⟨[(before, DynamicRenameContent.PaddedInteger)], after⟩
    | none =>
      Except.error ⟨after_brace_idx, RenameSpecParseErrorKind.UnexpectedAfterOpenCurlyBrace⟩

/-- `RenameSpec::has_dynamic_content` of `src/lib.rs`. -/
def RenameSpec.has_dynamic_content (r : RenameSpec) : Bool :=
  !r.delimited.isEmpty

/-- `struct RenameContext` of `src/lib.rs`. -/
structure RenameContext where
  idx : Nat
  max_size_hint_digits : Nat

/-- Decimal digits of `n`, most significant first, as ASCII bytes; the first
argument is recursion fuel (any fuel above the digit count is enough). -/
def decDigitsAux : Nat → Nat → List Nat
  | 0, _ => []
  | fuel + 1, n =>
    if n < 10 then [48 + n]
    else decDigitsAux fuel (n / 10) ++ [48 + n % 10]

/-- Decimal digit bytes of `n`, most significant first: what Rust emits for
`write!(f, "\x7bidx\x7d")` before any padding is applied. -/
def decDigits (n : Nat) : List Nat :=
  decDigitsAux (n + 1) n

/-- Rust's `\x7bidx:0padding$\x7d` formatting: the decimal digits of `idx`,
left-padded with `'0'` (byte 48) up to `w` characters; when the digits
already fill `w` or more characters nothing is prepended (`w - len = 0` in
truncated subtraction) and the digits appear in full. -/
def padNum (idx w : Nat) : List Nat :=
  List.replicate (w - (decDigits idx).length) 48 ++ decDigits idx

/-- `RenameSpec::write` of `src/lib.rs`: for each delimited pair write the
literal text then the rendered dynamic content (`PaddedInteger` renders the
context index zero-padded to the context width), then write the suffix.
Writing into a `String` cannot fail, so the embedding is total. -/
def RenameSpec.write (r : RenameSpec) (ctx : RenameContext) : List Nat :=
  (r.delimited.foldr
    (fun pd acc =>
      pd.1 ++
        (match pd.2 with
          | DynamicRenameContent.PaddedInteger =>
            padNum ctx.idx ctx.max_size_hint_digits) ++
        acc)
    []) ++ r.suffix

/-- Modelled from the spec wording of the Index Formatter, for comparison
with `padNum`: the index written in decimal and left-padded with zeros to
exactly `width` characters, except that when the digit count already exceeds
`width` the full digit sequence is emitted unchanged. -/
def zero_padded (idx width : Nat) : List Nat :=
  if width ≤ (decDigits idx).length then decDigits idx
  else List.replicate (width - (decDigits idx).length) 48 ++ decDigits idx

/-- Floor of the base-10 logarithm, by repeated division; the first argument
is recursion fuel (fuel `n` is enough for input `n`).  This is the value the
source computes as `(n as f64).log10() as usize`: for `1 ≤ n ≤ u32::MAX` the
`u32 → f64` conversion is exact and correctly-rounded `log10` is within one
ulp of the true logarithm, whose distance to the nearest integer is at least
`4e-10` unless it is an integer, so truncating the float to an integer gives
exactly `floor(log10 n)`. -/
def log10floorAux : Nat → Nat → Nat
  | 0, _ => 0
  | fuel + 1, n =>
    if n < 10 then 0
    else log10floorAux fuel (n / 10) + 1

/-- Floor of the base-10 logarithm of `n` (for `n ≥ 1`). -/
def log10floor (n : Nat) : Nat :=
  log10floorAux n n

/-- `max.unwrap_or(min)` applied to an iterator size hint, as in
`zip_single_side_scans` of `src/lib.rs`: the assumed maximum count is the
upper bound when present, else the lower bound. -/
def assumed_max (hint : Nat × Option Nat) : Nat :=
  hint.2.getD hint.1

/-- The `max_size_hint_digits` computation of `zip_single_side_scans` in
`src/lib.rs`.  A hinted count of `0` gives width `1`; otherwise the count is
converted to `u32` by `u32::try_from(n).unwrap()` — a panic when
`n > u32::MAX`, modelled as `none` — and the width is `floor(log10 n) + 1`
(the final `checked_add(1).unwrap()` cannot fail: `log10` of a `u32` is at
most `9`). -/
def max_size_hint_digits (hint : Nat × Option Nat) : Option Nat :=
  let n := assumed_max hint
  if n = 0 then some 1
  else if n < 2 ^ 32 then some (log10floor n + 1) else none

/-- `std::ops::ControlFlow<E, ()>`, the type the `Visitor::visit` method of
`src/lib.rs` returns. -/
inductive ControlFlow (E : Type u) where
  | Continue : ControlFlow E
  | Break : E → ControlFlow E

/-- The `for (idx, from) in files.enumerate()` loop of
`zip_single_side_scans` in `src/lib.rs`, over the remaining files and the
running index.  The visitor is stateful (`&mut self` in the source): `step`
maps a visitor state, the index, the source path and the rendered
destination to the next state and a `ControlFlow`.  `Break e` returns
`Except.error e` at once; when the list is exhausted the result is
`Except.ok ()`.  (`rename_spec.write(..).unwrap()` cannot panic: writing to
a `String` is infallible.) -/
def zipGo {β S E : Type u} (r : RenameSpec) (w : Nat)
    (step : S → Nat → β → List Nat → S × ControlFlow E) :
    List β → Nat → S → S × Except E Unit
  | [], _, s => (s, Except.ok ())
  | x :: rest, idx, s =>
    let dst := r.write ⟨idx, w⟩
    match step s idx x dst with
    | (s1, ControlFlow.Continue) => zipGo r w step rest (idx + 1) s1
    | (s1, ControlFlow.Break e) => (s1, Except.error e)

/-- `zip_single_side_scans` of `src/lib.rs`.  A Rust iterator's size hint is
independent data from the items it ends up yielding, so the embedding takes
the hint and the item list separately.  `none` models the
`u32::try_from(..).unwrap()` panic inside the width computation; otherwise
the main loop runs with the computed width, starting at index `0`. -/
def zip_single_side_scans {β S E : Type u} (hint : Nat × Option Nat)
    (files : List β) (r : RenameSpec)
    (step : S → Nat → β → List Nat → S × ControlFlow E) (s0 : S) :
    Option (S × Except E Unit) :=
  match max_size_hint_digits hint with
  | none => none
  | some w => some (zipGo r w step files 0 s0)

/-- A recording visitor built from a stateless decision function `f`: its
state is the list of `(index, source, destination)` triples it has been
invoked on, in order, and its control flow is whatever `f` answers.  Used to
observe which items the sequencer visits. -/
def recStep {β E : Type} (f : Nat → β → List Nat → ControlFlow E) :
    List (Nat × β × List Nat) → Nat → β → List Nat →
    List (Nat × β × List Nat) × ControlFlow E :=
  fun tr idx src dst => (tr ++ [(idx, src, dst)], f idx src dst)

/-- The triples the sequencer hands over when it runs to completion from
index `idx`: the input items in unchanged order, with consecutive indices
and the destination rendered at each item's own index. -/
def seqTrace {β : Type} (r : RenameSpec) (w : Nat) : Nat → List β → List (Nat × β × List Nat)
  | _, [] => []
  | idx, x :: rest => (idx, x, r.write ⟨idx, w⟩) :: seqTrace r w (idx + 1) rest

/-- `enum ForwardOrBackward` of `src/main.rs`. -/
inductive ForwardOrBackward where
  | Forward : ForwardOrBackward
  | Backward : ForwardOrBackward

/-- `ZigZag::next` of `src/main.rs` as a step function on the iterator state
(the `next` direction field, and the remaining items of the double-ended
inner iterator, modelled as a list whose `next` pops the head and whose
`next_back` pops the last element).  In the `Forward` arm the item is
`inner.next()?` and the direction flips to `Backward`; in the `Backward` arm
the item is `inner.next_back()?` and the direction flips to `Forward`. -/
def ZigZag.next {α : Type} :
    ForwardOrBackward × List α → Option (α × (ForwardOrBackward × List α))
  | (ForwardOrBackward.Forward, inner) =>
    match inner with
    | [] => none
    | x :: rest => some (x, (ForwardOrBackward.Backward, rest))
  | (ForwardOrBackward.Backward, inner) =>
    match inner.getLast? with
    | none => none
    | some x => some (x, (ForwardOrBackward.Forward, inner.dropLast))

/-- The sequence of items a `ZigZag` iterator yields from a given state:
repeated `ZigZag.next` until `none`.  The first argument is fuel; every
step removes exactly one element from the inner list, so fuel equal to the
inner list's length runs the iterator to exhaustion. -/
def zigZagAux {α : Type} : Nat → ForwardOrBackward × List α → List α
  | 0, _ => []
  | fuel + 1, st =>
    match ZigZag.next st with
    | none => []
    | some (x, st1) => x :: zigZagAux fuel st1

/-- All items yielded by `ZigZag::new(iter)` (which starts in the `Forward`
direction) over an inner double-ended iterator holding `l`. -/
def zigZagTraversal {α : Type} (l : List α) : List α :=
  zigZagAux l.length (ForwardOrBackward.Forward, l)

/-- `ZigZag::size_hint` of `src/main.rs`: it delegates to the inner
iterator's size hint unchanged. -/
def ZigZag.size_hint (inner_hint : Nat × Option Nat) : Nat × Option Nat :=
  inner_hint

/-- The size hint of iterating a fully materialized `Vec` (`files.iter()` in
`src/main.rs`, also unchanged by the `.map` adapter): the exact length as
both bounds. -/
def slice_size_hint {α : Type} (l : List α) : Nat × Option Nat :=
  (l.length, some l.length)

/-- `std::convert::Infallible`, the `Error` type of `ZipVisitor` in
`src/main.rs`: a type with no values. -/
inductive Infallible where

/-- `struct ZipVisitor` of `src/main.rs`: just the dry-run flag. -/
structure ZipVisitor where
  dry_run : Bool

/-- `ZipVisitor::visit` of `src/main.rs`.  The method only logs, and in
real-run mode performs `fs::rename` whose outcome (supplied here by the
oracle argument `renameResult`, since the filesystem is external) is logged
on error but never propagated: the method returns
`ControlFlow::Continue(())` on every path. -/
def ZipVisitor.visit {ε : Type} (v : ZipVisitor) (renameResult : Except ε Unit)
    (idx : Nat) (src : List Nat) (dst : List Nat) : ControlFlow Infallible :=
  ControlFlow.Continue

/-- The `ZipVisitor` packaged as a sequencer step: the visitor state is the
`ZipVisitor` itself (its `visit` takes `&mut self` but never mutates it),
and the filesystem outcome of each attempted rename is supplied by the
oracle `fs`. -/
def zipVisitorStep {ε : Type} (fs : Nat → List Nat → List Nat → Except ε Unit) :
    ZipVisitor → Nat → List Nat → List Nat → ZipVisitor × ControlFlow Infallible :=
  fun v idx src dst => (v, ZipVisitor.visit v (fs idx src dst) idx src dst)

/-! ### Helper lemmas -/

theorem log10floorAux_bounds : ∀ (fuel n : Nat), n ≤ fuel → 1 ≤ n →
    10 ^ log10floorAux fuel n ≤ n ∧ n < 10 ^ (log10floorAux fuel n + 1) := by
  intro fuel
  induction fuel with
  | zero => intro n hle h1; omega
  | succ fuel ih =>
    intro n hle h1
    by_cases hlt : n < 10
    · simp [log10floorAux, hlt]
      omega
    · have hdiv1 : 1 ≤ n / 10 := by omega
      have hdivle : n / 10 ≤ fuel := by omega
      obtain ⟨hlow, hhigh⟩ := ih (n / 10) hdivle hdiv1
      simp only [log10floorAux, if_neg hlt]
      constructor
      · calc 10 ^ (log10floorAux fuel (n / 10) + 1)
            = 10 ^ log10floorAux fuel (n / 10) * 10 := by ring
          _ ≤ (n / 10) * 10 := Nat.mul_le_mul_right 10 hlow
          _ ≤ n := by omega
      · calc n < (n / 10 + 1) * 10 := by omega
          _ ≤ 10 ^ (log10floorAux fuel (n / 10) + 1) * 10 :=
              Nat.mul_le_mul_right 10 (by omega)
          _ = 10 ^ (log10floorAux fuel (n / 10) + 1 + 1) := by ring

theorem log10floor_eq_log (n : Nat) (h1 : 1 ≤ n) : log10floor n = Nat.log 10 n := by
  obtain ⟨hlow, hhigh⟩ := log10floorAux_bounds n n le_rfl h1
  exact (Nat.log_eq_of_pow_le_of_lt_pow hlow hhigh).symm

theorem padNum_eq_zero_padded (idx w : Nat) : padNum idx w = zero_padded idx w := by
  unfold padNum zero_padded
  by_cases h : w ≤ (decDigits idx).length
  · rw [if_pos h]
    have : w - (decDigits idx).length = 0 := by omega
    rw [this]
    simp
  · rw [if_neg h]

theorem decDigitsAux_ne_nil (fuel n : Nat) (h : 1 ≤ fuel) : decDigitsAux fuel n ≠ [] := by
  match fuel, h with
  | fuel + 1, _ =>
    unfold decDigitsAux
    by_cases hlt : n < 10
    · simp [hlt]
    · simp [hlt]

theorem zero_padded_length (idx w : Nat) :
    (zero_padded idx w).length = max w (decDigits idx).length := by
  unfold zero_padded
  by_cases h : w ≤ (decDigits idx).length
  · rw [if_pos h]
    omega
  · rw [if_neg h]
    simp
    omega

theorem zigZagAux_perm {α : Type} :
    ∀ (fuel : Nat) (d : ForwardOrBackward) (l : List α), l.length ≤ fuel →
    (zigZagAux fuel (d, l)).Perm l := by
  intro fuel
  induction fuel with
  | zero =>
    intro d l hle
    have : l = [] := List.length_eq_zero.mp (by omega)
    subst this
    simp [zigZagAux]
  | succ fuel ih =>
    intro d l hle
    cases d with
    | Forward =>
      cases l with
      | nil => simp [zigZagAux, ZigZag.next]
      | cons x rest =>
        simp only [zigZagAux, ZigZag.next]
        have hlen : rest.length ≤ fuel := by
          simp only [List.length_cons] at hle
          omega
        exact List.Perm.cons x (ih _ rest hlen)
    | Backward =>
      rcases List.eq_nil_or_concat l with hnil | ⟨L, b, hcat⟩
      · subst hnil
        simp [zigZagAux, ZigZag.next]
      · subst hcat
        rw [List.concat_eq_append] at *
        have hlen : L.length ≤ fuel := by
          simp at hle
          omega
        simp only [zigZagAux, ZigZag.next, List.getLast?_concat, List.dropLast_concat]
        have h1 : (b :: zigZagAux fuel (ForwardOrBackward.Forward, L)).Perm (b :: L) :=
          List.Perm.cons b (ih _ L hlen)
        have h2 : (b :: L).Perm (L ++ [b]) := (List.perm_append_singleton b L).symm
        exact h1.trans h2

theorem zipGo_continue_of_forall {β E : Type} (r : RenameSpec) (w : Nat)
    (f : Nat → β → List Nat → ControlFlow E) :
    ∀ (files : List β) (idx : Nat) (tr : List (Nat × β × List Nat)),
    (∀ i (h : i < files.length),
      f (idx + i) (files.get ⟨i, h⟩) (r.write ⟨idx + i, w⟩) = ControlFlow.Continue) →
    zipGo r w (recStep f) files idx tr = (tr ++ seqTrace r w idx files, Except.ok ()) := by
  intro files
  induction files with
  | nil => intro idx tr _; simp [zipGo, seqTrace]
  | cons x rest ih =>
    intro idx tr hcont
    have h0 : f idx x (r.write ⟨idx, w⟩) = ControlFlow.Continue := by
      have h00 := hcont 0 (by simp)
      simpa using h00
    have hcont1 : ∀ i (h : i < rest.length),
        f (idx + 1 + i) (rest.get ⟨i, h⟩) (r.write ⟨idx + 1 + i, w⟩) = ControlFlow.Continue := by
      intro i h
      have heq : idx + 1 + i = idx + (i + 1) := by omega
      rw [heq]
      have h01 := hcont (i + 1) (by simpa using Nat.succ_lt_succ h)
      simpa using h01
    simp only [zipGo, recStep, seqTrace]
    rw [h0]
    simp only [List.append_eq]
    rw [ih (idx + 1) (tr ++ [(idx, x, r.write ⟨idx, w⟩)]) hcont1]
    simp [seqTrace]

theorem stripToken_eq_some_iff : ∀ (tok s r : List Nat),
    stripToken tok s = some r ↔ s = tok ++ r := by
  intro tok
  induction tok with
  | nil =>
    intro s r
    simp [stripToken, eq_comm]
  | cons t ts ih =>
    intro s r
    cases s with
    | nil => simp [stripToken]
    | cons b bs =>
      by_cases hbt : b = t
      · subst hbt
        simp [stripToken, ih]
      · simp [stripToken, hbt]

theorem zipGo_break {β E : Type} (r : RenameSpec) (w : Nat)
    (f : Nat → β → List Nat → ControlFlow E) :
    ∀ (pre : List β) (x : β) (post : List β) (e : E) (idx : Nat)
      (tr : List (Nat × β × List Nat)),
    (∀ i (h : i < pre.length),
      f (idx + i) (pre.get ⟨i, h⟩) (r.write ⟨idx + i, w⟩) = ControlFlow.Continue) →
    f (idx + pre.length) x (r.write ⟨idx + pre.length, w⟩) = ControlFlow.Break e →
    zipGo r w (recStep f) (pre ++ x :: post) idx tr =
      (tr ++ seqTrace r w idx (pre ++ [x]), Except.error e) := by
  intro pre
  induction pre with
  | nil =>
    intro x post e idx tr hcont hbreak
    simp only [List.length_nil, Nat.add_zero] at hbreak
    simp only [List.nil_append, zipGo, recStep]
    rw [hbreak]
    simp [seqTrace]
  | cons p pre ih =>
    intro x post e idx tr hcont hbreak
    have h0 : f idx p (r.write ⟨idx, w⟩) = ControlFlow.Continue := by
      have h00 := hcont 0 (by simp)
      simpa using h00
    have hcont1 : ∀ i (h : i < pre.length),
        f (idx + 1 + i) (pre.get ⟨i, h⟩) (r.write ⟨idx + 1 + i, w⟩) = ControlFlow.Continue := by
      intro i h
      have heq : idx + 1 + i = idx + (i + 1) := by omega
      rw [heq]
      have h01 := hcont (i + 1) (by simpa using Nat.succ_lt_succ h)
      simpa using h01
    have hbreak1 : f (idx + 1 + pre.length) x (r.write ⟨idx + 1 + pre.length, w⟩) =
        ControlFlow.Break e := by
      have heq : idx + 1 + pre.length = idx + (p :: pre).length := by
        simp
        omega
      rw [heq]
      exact hbreak
    simp only [List.cons_append, zipGo, recStep]
    rw [h0]
    simp only [List.append_eq]
    rw [ih x post e (idx + 1) (tr ++ [(idx, p, r.write ⟨idx, w⟩)]) hcont1 hbreak1]
    simp [seqTrace]

/-! ### Claim theorems -/

/-- C1: for every pattern that compiles successfully with exactly one
`padded_idx` field, and every index and padding width, the rendered
destination is the literal text before the brace, then the index written in
decimal left-padded with zero characters to exactly the padding width (the
full unpadded digit sequence when the digit count exceeds the width), then
the literal text after the closing brace; `zero_padded` is the spec-side
description of the padded number and `padNum` the code-side one. -/
theorem write_of_single_padded_field (s pre : List Nat) (r : RenameSpec)
    (idx w : Nat) (hok : RenameSpec.new s = Except.ok r)
    (hfield : r.delimited = [(pre, DynamicRenameContent.PaddedInteger)]) :
    r.write ⟨idx, w⟩ = pre ++ zero_padded idx w ++ r.suffix ∧
    ((decDigits idx).length ≤ w → (zero_padded idx w).length = w) ∧
    (w < (decDigits idx).length → zero_padded idx w = decDigits idx) ∧
    padNum idx w = zero_padded idx w ∧
    decDigits idx ≠ [] := by
  refine ⟨?_, ?_, ?_, padNum_eq_zero_padded idx w, decDigitsAux_ne_nil (idx + 1) idx (by omega)⟩
  · simp [RenameSpec.write, hfield, padNum_eq_zero_padded]
  · intro hle
    rw [zero_padded_length]
    omega
  · intro hlt
    unfold zero_padded
    rw [if_pos (by omega)]

/-- C1 witness: the theorem applied to the compiled pattern
`photo-padded-idx.jpg` at index `1234` with width `2` (digit count exceeds
the width) — the hypotheses hold by computation. -/
theorem write_of_single_padded_field_witness :
    RenameSpec.write ⟨[(ascii "photo-", DynamicRenameContent.PaddedInteger)], ascii ".jpg"⟩
        ⟨1234, 2⟩ =
      ascii "photo-" ++ zero_padded 1234 2 ++ ascii ".jpg" ∧
    ((decDigits 1234).length ≤ 2 → (zero_padded 1234 2).length = 2) ∧
    (2 < (decDigits 1234).length → zero_padded 1234 2 = decDigits 1234) ∧
    padNum 1234 2 = zero_padded 1234 2 ∧
    decDigits 1234 ≠ [] :=
  write_of_single_padded_field (ascii "photo-{padded_idx}.jpg") (ascii "photo-")
    ⟨[(ascii "photo-", DynamicRenameContent.PaddedInteger)], ascii ".jpg"⟩ 1234 2 rfl rfl

/-- C2: whenever the sequencer computes a padding width from a size hint
(`max_size_hint_digits hint = some w`), the assumed maximum count is the
hint's upper bound if present, else the lower bound, and the width is
`floor(log10 n) + 1` with special case `n = 0 → 1`; the width is always at
least `1`, and the sample hints `0, 9, 10, 999, 1000` give widths
`1, 1, 2, 3, 4`. -/
theorem max_size_hint_digits_eq_log (hint : Nat × Option Nat) (w : Nat)
    (h : max_size_hint_digits hint = some w) :
    (w = if assumed_max hint = 0 then 1 else Nat.log 10 (assumed_max hint) + 1) ∧
    1 ≤ w ∧
    assumed_max (3, some 7) = 7 ∧
    assumed_max (3, none) = 3 ∧
    max_size_hint_digits (0, some 0) = some 1 ∧
    max_size_hint_digits (9, some 9) = some 1 ∧
    max_size_hint_digits (10, some 10) = some 2 ∧
    max_size_hint_digits (999, some 999) = some 3 ∧
    max_size_hint_digits (1000, some 1000) = some 4 := by
  have hmain : w = if assumed_max hint = 0 then 1
      else Nat.log 10 (assumed_max hint) + 1 := by
    simp only [max_size_hint_digits] at h
    by_cases hn0 : assumed_max hint = 0
    · rw [if_pos hn0] at h
      rw [if_pos hn0]
      simpa using h.symm
    · rw [if_neg hn0] at h
      rw [if_neg hn0]
      by_cases h32 : assumed_max hint < 2 ^ 32
      · rw [if_pos h32] at h
        have hw : w = log10floor (assumed_max hint) + 1 := by
          simpa using h.symm
        rw [hw, log10floor_eq_log (assumed_max hint) (by omega)]
      · rw [if_neg h32] at h
        exact absurd h (by simp)
  refine ⟨hmain, ?_, by decide, by decide, by decide, by decide, by decide, by decide, by decide⟩
  by_cases hn0 : assumed_max hint = 0
  · rw [if_pos hn0] at hmain
    omega
  · rw [if_neg hn0] at hmain
    omega

/-- C2 witness: the theorem at the hint `(3, some 7)` whose computed width is
`1`. -/
theorem max_size_hint_digits_eq_log_witness :
    (1 = if assumed_max (3, some 7) = 0 then 1
         else Nat.log 10 (assumed_max (3, some 7)) + 1) ∧
    1 ≤ 1 ∧
    assumed_max (3, some 7) = 7 ∧
    assumed_max (3, none) = 3 ∧
    max_size_hint_digits (0, some 0) = some 1 ∧
    max_size_hint_digits (9, some 9) = some 1 ∧
    max_size_hint_digits (10, some 10) = some 2 ∧
    max_size_hint_digits (999, some 999) = some 3 ∧
    max_size_hint_digits (1000, some 1000) = some 4 :=
  max_size_hint_digits_eq_log (3, some 7) 1 (by decide)

/-- C3: pattern compilation fails exactly when the input has an opening brace
whose following text does not start with the token `padded_idx` plus closing
brace; on failure the error's `idx` is the byte offset just past the first
opening brace (offset `5` for `img_` followed by a braced `bad`); on success
with a brace present, the bytes before the brace are the recorded literal of
the single `PaddedInteger` pair and the bytes after the token are the
recorded suffix. -/
theorem new_error_iff :
    (∀ s : List Nat,
      ((∃ i, List.findIdx? (fun b => b == 123) s = some i) ↔ 123 ∈ s) ∧
      ((∃ e, RenameSpec.new s = Except.error e) ↔
        (∃ i, List.findIdx? (fun b => b == 123) s = some i ∧
          ¬ ∃ rest, List.drop (i + 1) s = padded_idx_token ++ rest)) ∧
      (∀ i e, List.findIdx? (fun b => b == 123) s = some i →
        RenameSpec.new s = Except.error e →
        e.idx = i + 1 ∧ e.source = RenameSpecParseErrorKind.UnexpectedAfterOpenCurlyBrace) ∧
      (∀ i r, List.findIdx? (fun b => b == 123) s = some i →
        RenameSpec.new s = Except.ok r →
        r.delimited = [(List.take i s, DynamicRenameContent.PaddedInteger)] ∧
        List.drop (i + 1) s = padded_idx_token ++ r.suffix)) ∧
    RenameSpec.new (ascii "img_{bad}") =
      Except.error ⟨5, RenameSpecParseErrorKind.UnexpectedAfterOpenCurlyBrace⟩ := by
  refine ⟨?_, by rfl⟩
  intro s
  refine ⟨?_, ?_, ?_, ?_⟩
  · constructor
    · rintro ⟨i, hi⟩
      by_contra hmem
      rw [show (List.findIdx? (fun b => b == 123) s = none) from ?_] at hi
      · exact Option.noConfusion hi
      · rw [List.findIdx?_eq_none_iff]
        intro x hx
        simp only [beq_eq_false_iff_ne, ne_eq]
        intro hx123
        exact hmem (hx123 ▸ hx)
    · intro hmem
      rcases h : List.findIdx? (fun b => b == 123) s with _ | i
      · rw [List.findIdx?_eq_none_iff] at h
        have := h 123 hmem
        simp at this
      · exact ⟨i, rfl⟩
  · constructor
    · rintro ⟨e, he⟩
      rcases h1 : List.findIdx? (fun b => b == 123) s with _ | i
      · simp only [RenameSpec.new, h1] at he
        exact Except.noConfusion he
      · simp only [RenameSpec.new, h1] at he
        rcases h2 : stripToken padded_idx_token (List.drop (i + 1) s) with _ | after
        · refine ⟨i, rfl, ?_⟩
          rintro ⟨rest, hrest⟩
          rw [← stripToken_eq_some_iff] at hrest
          rw [hrest] at h2
          exact Option.noConfusion h2
        · rw [h2] at he
          simp at he
    · rintro ⟨i, h1, h2⟩
      simp only [RenameSpec.new, h1]
      rcases h3 : stripToken padded_idx_token (List.drop (i + 1) s) with _ | after
      · exact ⟨_, rfl⟩
      · rw [stripToken_eq_some_iff] at h3
        exact absurd ⟨after, h3⟩ h2
  · intro i e h1 he
    simp only [RenameSpec.new, h1] at he
    rcases h3 : stripToken padded_idx_token (List.drop (i + 1) s) with _ | after
    · rw [h3] at he
      simp only [Except.error.injEq] at he
      rw [← he]
      exact ⟨rfl, rfl⟩
    · rw [h3] at he
      simp at he
  · intro i r h1 hr
    simp only [RenameSpec.new, h1] at hr
    rcases h3 : stripToken padded_idx_token (List.drop (i + 1) s) with _ | after
    · rw [h3] at hr
      simp at hr
    · rw [h3] at hr
      simp only [Except.ok.injEq] at hr
      rw [stripToken_eq_some_iff] at h3
      rw [← hr]
      exact ⟨rfl, h3⟩

/-- C4: if the visitor answers `Break e` on the item at position `k` (having
answered `Continue` on every earlier item), the sequencer loop returns
`Except.error e` and the recorded visits are exactly the items at positions
`0..k` — nothing after position `k` is rendered or visited; if the visitor
answers `Continue` on every item, all items are visited in order and the
loop returns `Except.ok ()`.  A concrete run breaking at position `2` of a
five-item input stops after three visits. -/
theorem zip_stops_on_break :
    (∀ (β E : Type) (r : RenameSpec) (w : Nat) (f : Nat → β → List Nat → ControlFlow E)
       (pre : List β) (x : β) (post : List β) (e : E),
      (∀ i (h : i < pre.length),
        f i (pre.get ⟨i, h⟩) (r.write ⟨i, w⟩) = ControlFlow.Continue) →
      f pre.length x (r.write ⟨pre.length, w⟩) = ControlFlow.Break e →
      zipGo r w (recStep f) (pre ++ x :: post) 0 [] =
        (seqTrace r w 0 (pre ++ [x]), Except.error e)) ∧
    (∀ (β E : Type) (r : RenameSpec) (w : Nat) (f : Nat → β → List Nat → ControlFlow E)
       (files : List β),
      (∀ i (h : i < files.length),
        f i (files.get ⟨i, h⟩) (r.write ⟨i, w⟩) = ControlFlow.Continue) →
      zipGo r w (recStep f) files 0 [] = (seqTrace r w 0 files, Except.ok ())) ∧
    zipGo ⟨[], []⟩ 1
        (recStep (fun i (_ : Nat) (_ : List Nat) =>
          if i = 2 then ControlFlow.Break 99 else ControlFlow.Continue))
        [10, 11, 12, 13, 14] 0 [] =
      ([(0, 10, []), (1, 11, []), (2, 12, [])], Except.error 99) := by
  refine ⟨?_, ?_, by rfl⟩
  · intro β E r w f pre x post e hcont hbreak
    have h := zipGo_break r w f pre x post e 0 [] ?_ ?_
    · simpa using h
    · intro i hi
      simpa using hcont i hi
    · simpa using hbreak
  · intro β E r w f files hcont
    have h := zipGo_continue_of_forall r w f files 0 [] ?_
    · simpa using h
    · intro i hi
      simpa using hcont i hi

/-- C5: the alternating-ends traversal yields the first remaining item from
the front, then the first remaining item from the back, alternating until
the input is exhausted (the last two conjuncts are the two unfolding
equations); on `[a, b, c, d, e]` it yields `a, e, b, d, c`, whose positions
(the indices the sequencer then assigns) are `0..4` respectively; an empty
or singleton input comes out unchanged. -/
theorem zigZag_alternating_ends :
    (∀ (α : Type) (a b c d e : α), zigZagTraversal [a, b, c, d, e] = [a, e, b, d, c]) ∧
    (∀ (α : Type) (a b c d e : α),
      (zigZagTraversal [a, b, c, d, e]).enum = [(0, a), (1, e), (2, b), (3, d), (4, c)]) ∧
    (∀ (α : Type), zigZagTraversal ([] : List α) = []) ∧
    (∀ (α : Type) (x : α), zigZagTraversal [x] = [x]) ∧
    (∀ (α : Type) (fuel : Nat) (x : α) (rest : List α),
      zigZagAux (fuel + 1) (ForwardOrBackward.Forward, x :: rest) =
        x :: zigZagAux fuel (ForwardOrBackward.Backward, rest)) ∧
    (∀ (α : Type) (fuel : Nat) (L : List α) (b : α),
      zigZagAux (fuel + 1) (ForwardOrBackward.Backward, L ++ [b]) =
        b :: zigZagAux fuel (ForwardOrBackward.Forward, L)) := by
  refine ⟨fun α a b c d e => rfl, fun α a b c d e => rfl, fun α => rfl, fun α x => rfl,
    fun α fuel x rest => rfl, ?_⟩
  intro α fuel L b
  simp [zigZagAux, ZigZag.next, List.getLast?_concat, List.dropLast_concat]

/-- C6: a pattern with no opening brace (byte `123`) compiles successfully,
reports no dynamic content, and renders as itself for every index and
padding width. -/
theorem new_no_brace (s : List Nat) (h : ¬ 123 ∈ s) :
    ∃ r, RenameSpec.new s = Except.ok r ∧ r.has_dynamic_content = false ∧
      ∀ idx w, r.write ⟨idx, w⟩ = s := by
  have hfind : List.findIdx? (fun b => b == 123) s = none := by
    rw [List.findIdx?_eq_none_iff]
    intro x hx
    simp only [beq_eq_false_iff_ne, ne_eq]
    intro hx123
    exact h (hx123 ▸ hx)
  refine ⟨⟨[], s⟩, ?_, rfl, ?_⟩
  · simp only [RenameSpec.new, hfind]
  · intro idx w
    simp [RenameSpec.write]

/-- C6 witness: the literal pattern `asdf.txt`, which has no brace. -/
theorem new_no_brace_witness :
    ∃ r, RenameSpec.new (ascii "asdf.txt") = Except.ok r ∧
      r.has_dynamic_content = false ∧
      ∀ idx w, r.write ⟨idx, w⟩ = ascii "asdf.txt" :=
  new_no_brace (ascii "asdf.txt") (by decide)

/-- C7: under sequential traversal the sequencer visits the items in
unchanged input order with indices `0, 1, 2, …` (the recorded trace is
`seqTrace`, whose head equation shows the consecutive indexing), and in the
end-to-end scenario with inputs `p0.jpg, p1.jpg, p2.jpg` and pattern
`photo-` + padded index + `.jpg` the destinations are `photo-0.jpg,
photo-1.jpg, photo-2.jpg` in order, with padding width `1` from the size
hint `3`. -/
theorem zip_sequential_order :
    (∀ (β E : Type) (r : RenameSpec) (w : Nat) (files : List β),
      zipGo r w (recStep (fun _ _ _ => (ControlFlow.Continue : ControlFlow E))) files 0 [] =
        (seqTrace r w 0 files, Except.ok ())) ∧
    (∀ (β : Type) (r : RenameSpec) (w idx : Nat) (x : β) (rest : List β),
      seqTrace r w idx (x :: rest) =
        (idx, x, r.write ⟨idx, w⟩) :: seqTrace r w (idx + 1) rest) ∧
    max_size_hint_digits (3, some 3) = some 1 ∧
    RenameSpec.new (ascii "photo-{padded_idx}.jpg") =
      Except.ok ⟨[(ascii "photo-", DynamicRenameContent.PaddedInteger)], ascii ".jpg"⟩ ∧
    zip_single_side_scans (3, some 3)
        [ascii "p0.jpg", ascii "p1.jpg", ascii "p2.jpg"]
        ⟨[(ascii "photo-", DynamicRenameContent.PaddedInteger)], ascii ".jpg"⟩
        (recStep (fun _ _ _ => (ControlFlow.Continue : ControlFlow Infallible))) [] =
      some ([(0, ascii "p0.jpg", ascii "photo-0.jpg"),
             (1, ascii "p1.jpg", ascii "photo-1.jpg"),
             (2, ascii "p2.jpg", ascii "photo-2.jpg")], Except.ok ()) := by
  refine ⟨?_, fun β r w idx x rest => rfl, by decide, by rfl, by rfl⟩
  intro β E r w files
  have h := zipGo_continue_of_forall r w (fun _ _ _ => (ControlFlow.Continue : ControlFlow E))
    files 0 [] (fun i hi => rfl)
  simpa using h

/-- C8: the execution reaction returns `Continue` for every item in both
dry-run and real-run mode, whatever the filesystem answers for the
attempted rename; its error type `Infallible` is uninhabited; and a whole
sequencer run driven by it always ends in `Except.ok ()` — an individual
rename failure can never abort the batch. -/
theorem zipVisitor_always_continues :
    (∀ (ε : Type) (v : ZipVisitor) (renameResult : Except ε Unit) (idx : Nat)
       (src dst : List Nat),
      ZipVisitor.visit v renameResult idx src dst = ControlFlow.Continue) ∧
    IsEmpty Infallible ∧
    (∀ (ε : Type) (fs : Nat → List Nat → List Nat → Except ε Unit) (r : RenameSpec)
       (w : Nat) (files : List (List Nat)) (idx : Nat) (dr : Bool),
      (zipGo r w (zipVisitorStep fs) files idx ⟨dr⟩).2 = Except.ok ()) := by
  refine ⟨fun ε v res idx src dst => rfl, ⟨fun e => nomatch e⟩, ?_⟩
  intro ε fs r w files
  induction files with
  | nil => intro idx dr; rfl
  | cons x rest ih =>
    intro idx dr
    simpa [zipGo, zipVisitorStep, ZipVisitor.visit] using ih (idx + 1) dr

/-- C9: the sequencer panics — modelled as `none` — exactly when the assumed
maximum count from the size hint reaches `2 ^ 32` (beyond `u32::MAX`),
because the count passes through `u32::try_from(..).unwrap()` before the
width is computed; within `u32` range a width is always produced and the
run proceeds.  Boundary checks at `2 ^ 32` and `2 ^ 32 - 1` included. -/
theorem zip_panics_beyond_u32 :
    (∀ hint : Nat × Option Nat,
      2 ^ 32 ≤ assumed_max hint → max_size_hint_digits hint = none) ∧
    (∀ hint : Nat × Option Nat,
      assumed_max hint < 2 ^ 32 → ∃ w, max_size_hint_digits hint = some w) ∧
    (∀ (β S E : Type) (hint : Nat × Option Nat) (files : List β) (r : RenameSpec)
       (step : S → Nat → β → List Nat → S × ControlFlow E) (s0 : S),
      2 ^ 32 ≤ assumed_max hint → zip_single_side_scans hint files r step s0 = none) ∧
    (∀ (β S E : Type) (hint : Nat × Option Nat) (files : List β) (r : RenameSpec)
       (step : S → Nat → β → List Nat → S × ControlFlow E) (s0 : S),
      assumed_max hint < 2 ^ 32 →
      ∃ out, zip_single_side_scans hint files r step s0 = some out) ∧
    max_size_hint_digits (2 ^ 32, some (2 ^ 32)) = none ∧
    max_size_hint_digits (2 ^ 32 - 1, some (2 ^ 32 - 1)) = some 10 := by
  have hnone : ∀ hint : Nat × Option Nat,
      2 ^ 32 ≤ assumed_max hint → max_size_hint_digits hint = none := by
    intro hint hge
    simp only [max_size_hint_digits]
    rw [if_neg (by omega), if_neg (by omega)]
  have hsome : ∀ hint : Nat × Option Nat,
      assumed_max hint < 2 ^ 32 → ∃ w, max_size_hint_digits hint = some w := by
    intro hint hlt
    simp only [max_size_hint_digits]
    by_cases hn0 : assumed_max hint = 0
    · rw [if_pos hn0]
      exact ⟨1, rfl⟩
    · rw [if_neg hn0, if_pos hlt]
      exact ⟨_, rfl⟩
  refine ⟨hnone, hsome, ?_, ?_, by decide, by decide⟩
  · intro β S E hint files r step s0 hge
    simp only [zip_single_side_scans, hnone hint hge]
  · intro β S E hint files r step s0 hlt
    obtain ⟨w, hw⟩ := hsome hint hlt
    refine ⟨(zipGo r w step files 0 s0), ?_⟩
    simp only [zip_single_side_scans, hw]

/-- C10: the alternating-ends traversal yields a permutation of its input —
every element exactly once, same length — and `ZigZag::size_hint` delegates
to the inner iterator's hint unchanged, so over a materialized list the
padding width under zig-zag order equals the width under sequential
order. -/
theorem zigZag_perm_and_size_hint :
    (∀ (α : Type) (l : List α), (zigZagTraversal l).Perm l) ∧
    (∀ (α : Type) (l : List α), (zigZagTraversal l).length = l.length) ∧
    (∀ h : Nat × Option Nat, ZigZag.size_hint h = h) ∧
    (∀ (α : Type) (l : List α),
      max_size_hint_digits (ZigZag.size_hint (slice_size_hint l)) =
        max_size_hint_digits (slice_size_hint l)) := by
  have hperm : ∀ (α : Type) (l : List α), (zigZagTraversal l).Perm l :=
    fun α l => zigZagAux_perm l.length ForwardOrBackward.Forward l le_rfl
  exact ⟨hperm, fun α l => (hperm α l).length_eq, fun h => rfl, fun α l => rfl⟩
